import Mathlib

/-!
# cxx_taskloop: the control loop of `TaskLoop`

A shallow embedding of `src/taskloop.hpp`.

* Instants (`steady_clock::time_point`) and durations (`nanoseconds`) are integers counting
  nanoseconds.  The 64-bit range of the C++ representation is not modelled: the arithmetic of
  `run` stays far from it for every realistic clock value.
* The worker thread is the function `TaskLoop.run`.  Everything the worker does not decide
  itself is supplied by a `World`: what each call of `task_` returns and how long it runs, what
  the worker reads in `stop_` at a given instant, and at which instant `cv_.wait_until` returns.
* The owner thread is a timeline of dated calls of `reset()` and of the destructor
  (`TaskLoop.ownerWorld`).
* The loop is unbounded in the source; `forLoop` takes the number of passes it may make and
  reports whether the `for (;;)` was left by one of its `break`s.
-/

namespace TaskLoop

/-! ## The worker: `TaskLoop::run` -/

/-- One call of `task_`: the `std::chrono::milliseconds` it returns, and the time (in
nanoseconds) that elapses between the call on line 41 and the moment the worker samples `now`
on line 54. -/
structure Call where
  ms : Int
  exec : Nat
  deriving DecidableEq, Repr

/-- Everything outside the worker's control. -/
structure World where
  /-- The call number `k` (counted from 0) of `task_`. -/
  task : Nat → Call
  /-- The value the worker reads in `stop_` at the given instant. -/
  stopped : Int → Bool
  /-- The instant at which `cv_.wait_until(lk, next)`, entered at instant `now`, returns:
  `waitUntil now next`. -/
  waitUntil : Int → Int → Int

/-- The worker at the head of the `for (;;)`: the local `next`, the reading of the steady clock,
and the instants at which `task_` has been called so far, oldest first. -/
structure Worker where
  next : Int
  clock : Int
  starts : List Int
  deriving DecidableEq, Repr

/-- The conversion `nanoseconds delay = task_()` of line 41. -/
def toNanoseconds (ms : Int) : Int := 1000000 * ms

/-- Lines 56 to 66: the new value of `next`. -/
def advance (steady_ : Bool) (next now delay : Int) : Int :=
  if steady_ then
    let next := next + delay
    if next < now then now + delay else next
  else
    now + delay

/-- How one pass through the body of the `for (;;)` ends. -/
inductive Pass where
  /-- The end of the body was reached: the loop goes round again. -/
  | again (s : Worker)
  /-- One of the three `break`s was taken. -/
  | exit (s : Worker)
  deriving DecidableEq, Repr

/-- Lines 41 to 72: one pass through the body of the `for (;;)`. -/
def body (w : World) (steady_ : Bool) (s : Worker) : Pass :=
  let r := w.task s.starts.length
  let delay := toNanoseconds r.ms
  let starts := s.starts ++ [s.clock]
  let now := s.clock + r.exec
  if w.stopped now then
    .exit { s with clock := now, starts := starts }
  else if delay = 0 then
    .exit { s with clock := now, starts := starts }
  else
    let next := advance steady_ s.next now delay
    let woke := w.waitUntil now next
    if w.stopped woke then
      .exit { next := next, clock := woke, starts := starts }
    else
      .again { next := next, clock := woke, starts := starts }

/-- Whether the pass left the loop. -/
def Pass.exited : Pass → Bool
  | .again _ => false
  | .exit _ => true

/-- The worker after the pass. -/
def Pass.state : Pass → Worker
  | .again s => s
  | .exit s => s

/-- Where the worker is after some passes: whether `run` has returned, and the worker's state
(at the `break` when it has, at the head of the loop otherwise). -/
structure Run where
  exited : Bool
  state : Worker
  deriving DecidableEq, Repr

/-- The `for (;;)` of lines 40 to 73, allowed at most the given number of passes. -/
def forLoop (w : World) (steady_ : Bool) : Nat → Worker → Run
  | 0, s => ⟨false, s⟩
  | fuel + 1, s =>
    match body w steady_ s with
    | .exit s' => ⟨true, s'⟩
    | .again s' => forLoop w steady_ fuel s'

/-- The worker on entry of `run` at instant `t0`: line 39 samples `next`, and the first call of
`task_` follows at once. -/
def entry (t0 : Int) : Worker := { next := t0, clock := t0, starts := [] }

/-- The method `run`, entered at instant `t0`. -/
def run (w : World) (steady_ : Bool) (t0 : Int) (fuel : Nat) : Run :=
  forLoop w steady_ fuel (entry t0)

/-- The number of times `task_` has been called. -/
def Run.calls (r : Run) : Nat := r.state.starts.length

/-! ## The owner: constructor, `reset` and destructor -/

/-- The member of `TaskLoop` that owner and worker share. -/
structure Shared where
  stop_ : Bool
  deriving DecidableEq, Repr

/-- Lines 82 to 85 of the constructor. -/
def create : Shared := { stop_ := false }

/-- The method `reset` (lines 103 to 106): `cv_.notify_all()` and nothing else. -/
def reset (m : Shared) : Shared := m

/-- The destructor up to its `notify_all` (lines 92 to 97). -/
def destroy (m : Shared) : Shared := { m with stop_ := true }

/-- What the owner may call on a live `TaskLoop`. Both calls end in `cv_.notify_all()`. -/
inductive OwnerCall where
  | reset
  | destroy
  deriving DecidableEq, Repr

/-- The effect of an owner call on the shared member. -/
def OwnerCall.apply : OwnerCall → Shared → Shared
  | .reset, m => TaskLoop.reset m
  | .destroy, m => TaskLoop.destroy m

/-- The owner's calls, each with the instant at which it is made. -/
abbrev Timeline := List (Int × OwnerCall)

/-- The shared member at instant `t`: the constructor followed by every owner call made up to
and including `t`. -/
def sharedAt (tl : Timeline) (t : Int) : Shared :=
  (tl.filter (fun c => decide (c.1 ≤ t))).foldl (fun m c => c.2.apply m) create

/-- The instant at which a wait entered at `now` with target `next` returns when the owner
follows the timeline: the first `notify_all` issued after `now`, or the target when none comes
before it; never before `now`. A `notify_all` issued at or before `now` finds nobody waiting. -/
def wakeAt (tl : Timeline) (now next : Int) : Int :=
  tl.foldr (fun c acc => if now < c.1 then min c.1 acc else acc) (max now next)

/-- The world of a worker whose owner follows the timeline `tl`, whose task follows `task`, and
whose waits are served without latency. -/
def ownerWorld (task : Nat → Call) (tl : Timeline) : World where
  task := task
  stopped := fun t => (sharedAt tl t).stop_
  waitUntil := wakeAt tl

/-- A task that always runs for `exec` nanoseconds and always returns `ms` milliseconds
(`TaskWithDelay` and the lambda of `TaskSteady::start` in the tests). -/
def fixedTask (ms : Int) (exec : Nat) : Nat → Call := fun _ => { ms := ms, exec := exec }

/-! ## The quantities of one pass -/

/-- The instant at which the pass that starts in `s` samples `now` (line 54); the check of
`stop_` on line 45 is made at the same instant. -/
def nowOf (w : World) (s : Worker) : Int := s.clock + (w.task s.starts.length).exec

/-- The `delay` of the pass that starts in `s` (line 41). -/
def delayOf (w : World) (s : Worker) : Int := toNanoseconds (w.task s.starts.length).ms

/-- The target handed to `cv_.wait_until` by the pass that starts in `s` (line 69). -/
def targetOf (w : World) (steady_ : Bool) (s : Worker) : Int :=
  advance steady_ s.next (nowOf w s) (delayOf w s)

/-- The instant at which the wait of the pass that starts in `s` returns; the check of `stop_`
on line 71 is made at that instant. -/
def wokeOf (w : World) (steady_ : Bool) (s : Worker) : Int :=
  w.waitUntil (nowOf w s) (targetOf w steady_ s)

/-- The world of an uninterrupted run: nobody calls `reset` or the destructor, and every wait
returns exactly at its target (at once when the target has already passed). -/
def quiet (task : Nat → Call) : World where
  task := task
  stopped := fun _ => false
  waitUntil := fun now next => max now next

/-- The owner of the test `Task_reset`: `reset` at 200 ms, 2700 ms and 2900 ms, destructor at
3100 ms. -/
def resetTest : Timeline :=
  [(toNanoseconds 200, .reset), (toNanoseconds 2700, .reset), (toNanoseconds 2900, .reset),
   (toNanoseconds 3100, .destroy)]

/-- Milliseconds as an instant or duration of the model. -/
def msec (n : Int) : Int := toNanoseconds n

/-! ## Basic facts about `body` and `forLoop` -/

theorem toNanoseconds_eq_zero (ms : Int) : toNanoseconds ms = 0 ↔ ms = 0 := by
  unfold toNanoseconds
  omega

theorem body_of_stop (w : World) (steady_ : Bool) (s : Worker)
    (h : w.stopped (nowOf w s) = true) :
    body w steady_ s = .exit { s with clock := nowOf w s, starts := s.starts ++ [s.clock] } := by
  unfold nowOf at h
  simp [body, h, nowOf]

theorem body_of_zero (w : World) (steady_ : Bool) (s : Worker)
    (h : (w.task s.starts.length).ms = 0) :
    body w steady_ s = .exit { s with clock := nowOf w s, starts := s.starts ++ [s.clock] } := by
  have hz : toNanoseconds (w.task s.starts.length).ms = 0 := (toNanoseconds_eq_zero _).2 h
  simp [body, hz, nowOf]

theorem body_of_wake_stop (w : World) (steady_ : Bool) (s : Worker)
    (h1 : w.stopped (nowOf w s) = false) (h2 : (w.task s.starts.length).ms ≠ 0)
    (h3 : w.stopped (wokeOf w steady_ s) = true) :
    body w steady_ s = .exit { next := targetOf w steady_ s, clock := wokeOf w steady_ s,
                               starts := s.starts ++ [s.clock] } := by
  have hz : toNanoseconds (w.task s.starts.length).ms ≠ 0 :=
    fun h => h2 ((toNanoseconds_eq_zero _).1 h)
  unfold wokeOf targetOf delayOf nowOf at h3
  unfold nowOf at h1
  simp [body, h1, hz, h3, wokeOf, targetOf, delayOf, nowOf]

theorem body_of_wake_run (w : World) (steady_ : Bool) (s : Worker)
    (h1 : w.stopped (nowOf w s) = false) (h2 : (w.task s.starts.length).ms ≠ 0)
    (h3 : w.stopped (wokeOf w steady_ s) = false) :
    body w steady_ s = .again { next := targetOf w steady_ s, clock := wokeOf w steady_ s,
                                starts := s.starts ++ [s.clock] } := by
  have hz : toNanoseconds (w.task s.starts.length).ms ≠ 0 :=
    fun h => h2 ((toNanoseconds_eq_zero _).1 h)
  unfold wokeOf targetOf delayOf nowOf at h3
  unfold nowOf at h1
  simp [body, h1, hz, h3, wokeOf, targetOf, delayOf, nowOf]

theorem body_starts (w : World) (steady_ : Bool) (s : Worker) :
    (body w steady_ s).state.starts = s.starts ++ [s.clock] := by
  unfold body
  simp only
  split_ifs <;> rfl

theorem forLoop_of_exit (w : World) (steady_ : Bool) (fuel : Nat) (s s' : Worker)
    (h : body w steady_ s = .exit s') : forLoop w steady_ (fuel + 1) s = ⟨true, s'⟩ := by
  simp [forLoop, h]

theorem forLoop_of_again (w : World) (steady_ : Bool) (fuel : Nat) (s s' : Worker)
    (h : body w steady_ s = .again s') :
    forLoop w steady_ (fuel + 1) s = forLoop w steady_ fuel s' := by
  simp [forLoop, h]

/-- Passes compose: a loop that has not exited after `m` passes continues from where it is. -/
theorem forLoop_add (w : World) (steady_ : Bool) (k : Nat) :
    ∀ (m : Nat) (s : Worker), forLoop w steady_ (m + k) s =
      if (forLoop w steady_ m s).exited then forLoop w steady_ m s
      else forLoop w steady_ k (forLoop w steady_ m s).state := by
  intro m
  induction m with
  | zero => intro s; simp [forLoop]
  | succ m ih =>
    intro s
    rw [Nat.add_right_comm]
    cases hb : body w steady_ s with
    | exit s' => simp [forLoop, hb]
    | again s' => simp [forLoop, hb, ih s']

/-- While nobody sets `stop_` and the task returns non-zero durations, the loop keeps going and
calls the task once per pass. -/
theorem forLoop_running (w : World) (steady_ : Bool) (hstop : ∀ t, w.stopped t = false) :
    ∀ (m : Nat) (s : Worker), (∀ j, j < m → (w.task (s.starts.length + j)).ms ≠ 0) →
      (forLoop w steady_ m s).exited = false ∧
      (forLoop w steady_ m s).state.starts.length = s.starts.length + m := by
  intro m
  induction m with
  | zero => intro s _; simp [forLoop]
  | succ m ih =>
    intro s h
    have hb := body_of_wake_run w steady_ s (hstop _) (by simpa using h 0 (Nat.succ_pos m))
      (hstop _)
    rw [forLoop_of_again w steady_ m s _ hb]
    have := ih { next := targetOf w steady_ s, clock := wokeOf w steady_ s,
                 starts := s.starts ++ [s.clock] } (by
      intro j hj
      have := h (j + 1) (by omega)
      simpa [Nat.add_assoc, Nat.add_comm 1 j] using this)
    simpa [Nat.add_assoc, Nat.add_comm 1 m] using this

/-! ## Termination -/

theorem foldl_apply_stop (l : Timeline) :
    ∀ m : Shared, m.stop_ = true → (l.foldl (fun m c => c.2.apply m) m).stop_ = true := by
  induction l with
  | nil => intro m h; simpa using h
  | cons c l ih =>
    intro m h
    rw [List.foldl_cons]
    apply ih
    cases hc : c.2 <;> simp [OwnerCall.apply, TaskLoop.reset, TaskLoop.destroy, h]

theorem foldl_apply_destroy (W : Int) (l : Timeline) :
    ∀ m : Shared, (W, OwnerCall.destroy) ∈ l →
      (l.foldl (fun m c => c.2.apply m) m).stop_ = true := by
  induction l with
  | nil => intro m h; simp at h
  | cons c l ih =>
    intro m h
    rw [List.foldl_cons]
    rcases List.mem_cons.1 h with h | h
    · apply foldl_apply_stop
      rw [← h]
      rfl
    · exact ih _ h

/-- Once the destructor has run, `stop_` is set for good: no later `reset` clears it. -/
theorem sharedAt_of_destroy (tl : Timeline) (W : Int) (h : (W, OwnerCall.destroy) ∈ tl)
    (t : Int) (ht : W ≤ t) : (sharedAt tl t).stop_ = true := by
  unfold sharedAt
  apply foldl_apply_destroy W
  simp [List.mem_filter, h, ht]

theorem foldl_apply_reset (l : Timeline) (hl : ∀ c ∈ l, c.2 = OwnerCall.reset) :
    ∀ m : Shared, (l.foldl (fun m c => c.2.apply m) m) = m := by
  induction l with
  | nil => intro m; rfl
  | cons c l ih =>
    intro m
    rw [List.foldl_cons, hl c (List.mem_cons_self _ _)]
    exact ih (fun c hc => hl c (List.mem_cons_of_mem _ hc)) _

/-- Calls of `reset` alone leave `stop_` as the constructor set it. -/
theorem sharedAt_of_resets (tl : Timeline) (hl : ∀ c ∈ tl, c.2 = OwnerCall.reset) (t : Int) :
    (sharedAt tl t).stop_ = false := by
  unfold sharedAt
  rw [foldl_apply_reset _ (fun c hc => hl c (List.mem_of_mem_filter hc))]
  rfl

/-- What is known when a pass goes round again. -/
theorem body_again_inv (w : World) (steady_ : Bool) (s s' : Worker)
    (h : body w steady_ s = .again s') :
    s' = { next := targetOf w steady_ s, clock := wokeOf w steady_ s,
           starts := s.starts ++ [s.clock] } ∧
    w.stopped (nowOf w s) = false ∧ (w.task s.starts.length).ms ≠ 0 ∧
    w.stopped (wokeOf w steady_ s) = false := by
  by_cases h1 : w.stopped (nowOf w s) = true
  · rw [body_of_stop w steady_ s h1] at h
    cases h
  · have h1' : w.stopped (nowOf w s) = false := by simpa using h1
    by_cases h2 : (w.task s.starts.length).ms = 0
    · rw [body_of_zero w steady_ s h2] at h
      cases h
    · by_cases h3 : w.stopped (wokeOf w steady_ s) = true
      · rw [body_of_wake_stop w steady_ s h1' h2 h3] at h
        cases h
      · have h3' : w.stopped (wokeOf w steady_ s) = false := by simpa using h3
        rw [body_of_wake_run w steady_ s h1' h2 h3'] at h
        cases h
        exact ⟨rfl, h1', h2, h3'⟩

/-- Once `stop_` is set from instant `W` on, every call the loop makes after the first call of
its first pass starts strictly before `W`. -/
theorem forLoop_calls_before (w : World) (steady_ : Bool) (W : Int)
    (hset : ∀ t, W ≤ t → w.stopped t = true) :
    ∀ (fuel : Nat) (s : Worker), ∃ rest : List Int,
      (forLoop w steady_ (fuel + 1) s).state.starts = s.starts ++ s.clock :: rest ∧
      ∀ t ∈ rest, t < W := by
  intro fuel
  induction fuel with
  | zero =>
    intro s
    refine ⟨[], ?_, by simp⟩
    have hs := body_starts w steady_ s
    cases hb : body w steady_ s with
    | exit s' => simpa [forLoop, hb, Pass.state] using hs
    | again s' => simpa [forLoop, hb, Pass.state] using hs
  | succ fuel ih =>
    intro s
    cases hb : body w steady_ s with
    | exit s' =>
      refine ⟨[], ?_, by simp⟩
      have hs := body_starts w steady_ s
      rw [forLoop_of_exit w steady_ (fuel + 1) s s' hb]
      simpa [hb, Pass.state] using hs
    | again s' =>
      obtain ⟨hs', _, _, h3⟩ := body_again_inv w steady_ s s' hb
      obtain ⟨rest, hr, hlt⟩ := ih s'
      refine ⟨s'.clock :: rest, ?_, ?_⟩
      · rw [forLoop_of_again w steady_ (fuel + 1) s s' hb, hr, hs']
        simp
      · intro t ht
        rcases List.mem_cons.1 ht with h | h
        · by_contra hge
          have := hset (wokeOf w steady_ s) (by rw [h, hs'] at hge; exact not_lt.1 hge)
          rw [h3] at this
          cases this
        · exact hlt t h

/-- C3. Destroy is final. Let the destructor set `stop_` at instant `W` of the owner's timeline,
the worker reading the flag the timeline gives. If the flag is set by the time the call made by
a pass has returned (as when it is set during that call: worker mid-invocation), the worker
leaves the loop at the check after the task. If the worker passed that check and the flag is set
by the time its wait returns (as when it is set during the wait: worker sleeping), it leaves the
loop at the check after the wait. In both cases, however many further passes are allowed, the
only call is the one of that pass. A loop that has been left stays left: more passes change
neither the state nor the calls. And over the whole run, every call beyond the one that the
first pass makes unconditionally starts strictly before `W`. -/
theorem destroy_is_final (w : World) (tl : Timeline) (W : Int)
    (hflag : ∀ t, w.stopped t = (sharedAt tl t).stop_) (hW : (W, OwnerCall.destroy) ∈ tl)
    (steady_ : Bool) (s : Worker) (fuel k : Nat) :
    (W ≤ nowOf w s →
      forLoop w steady_ (fuel + 1) s
        = ⟨true, { s with clock := nowOf w s, starts := s.starts ++ [s.clock] }⟩) ∧
    (w.stopped (nowOf w s) = false → (w.task s.starts.length).ms ≠ 0 →
      W ≤ wokeOf w steady_ s →
      forLoop w steady_ (fuel + 1) s
        = ⟨true, { next := targetOf w steady_ s, clock := wokeOf w steady_ s,
                   starts := s.starts ++ [s.clock] }⟩) ∧
    ((forLoop w steady_ fuel s).exited = true →
      forLoop w steady_ (fuel + k) s = forLoop w steady_ fuel s) ∧
    (∃ rest : List Int,
      (forLoop w steady_ (fuel + 1) s).state.starts = s.starts ++ s.clock :: rest ∧
      ∀ t ∈ rest, t < W) := by
  have hset : ∀ t, W ≤ t → w.stopped t = true := fun t ht => by
    rw [hflag]; exact sharedAt_of_destroy tl W hW t ht
  refine ⟨?_, ?_, ?_, forLoop_calls_before w steady_ W hset fuel s⟩
  · intro h
    exact forLoop_of_exit w steady_ fuel s _ (body_of_stop w steady_ s (hset _ h))
  · intro h1 h2 h3
    exact forLoop_of_exit w steady_ fuel s _ (body_of_wake_stop w steady_ s h1 h2 (hset _ h3))
  · intro h
    rw [forLoop_add, h]
    simp

theorem destroy_is_final_witness :
    forLoop (ownerWorld (fixedTask 1000 0) [(msec 2750, .destroy), (msec 2900, .reset)])
        false (3 + 1) { next := msec 2000, clock := msec 2000, starts := [0, msec 1000] }
      = ⟨true, { next := msec 3000, clock := msec 2750,
                 starts := [0, msec 1000] ++ [msec 2000] }⟩ :=
  (destroy_is_final (ownerWorld (fixedTask 1000 0) [(msec 2750, .destroy), (msec 2900, .reset)])
    [(msec 2750, .destroy), (msec 2900, .reset)] (msec 2750) (fun _ => rfl) (by simp)
    false { next := msec 2000, clock := msec 2000, starts := [0, msec 1000] } 3 0).2.1
    (by decide) (by decide) (by decide)

/-! ## Cadence of an uninterrupted run -/

theorem body_quiet (task : Nat → Call) (steady_ : Bool) (s : Worker)
    (h : (task s.starts.length).ms ≠ 0) :
    body (quiet task) steady_ s =
      .again { next := advance steady_ s.next (s.clock + (task s.starts.length).exec)
                         (toNanoseconds (task s.starts.length).ms),
               clock := max (s.clock + (task s.starts.length).exec)
                          (advance steady_ s.next (s.clock + (task s.starts.length).exec)
                            (toNanoseconds (task s.starts.length).ms)),
               starts := s.starts ++ [s.clock] } :=
  body_of_wake_run (quiet task) steady_ s rfl h rfl

theorem progression_cons (a D : Int) (m : Nat) :
    a :: (List.range m).map (fun k : Nat => a + D + k * D)
      = (List.range (m + 1)).map (fun k : Nat => a + k * D) := by
  rw [List.range_succ_eq_map]
  simp only [List.map_cons, List.map_map, Nat.cast_zero, zero_mul, add_zero]
  congr 1
  apply List.map_congr_left
  intro k _
  simp only [Function.comp, Nat.succ_eq_add_one, Nat.cast_add, Nat.cast_one]
  ring

theorem chain_progression (a D : Int) (n : Nat) :
    List.Chain' (fun x y : Int => y - x = D) ((List.range n).map (fun k : Nat => a + k * D)) := by
  rw [List.chain'_map]
  cases n with
  | zero => simp
  | succ n =>
    rw [List.chain'_range_succ]
    intro m _
    push_cast
    ring

/-- Non-steady mode, or steady mode with a task slower than its delay and a worker not ahead of
its target: every pass ends a full delay after the task returned. -/
theorem forLoop_sum_cadence (steady_ : Bool) (d : Int) (hd : 0 < d) (e : Nat)
    (hmode : steady_ = true → toNanoseconds d < e) :
    ∀ (m : Nat) (s : Worker), (steady_ = true → s.next ≤ s.clock) →
      (forLoop (quiet (fixedTask d e)) steady_ m s).exited = false ∧
      (forLoop (quiet (fixedTask d e)) steady_ m s).state.clock
        = s.clock + m * (e + toNanoseconds d) ∧
      (forLoop (quiet (fixedTask d e)) steady_ m s).state.starts
        = s.starts ++ (List.range m).map (fun k : Nat => s.clock + k * (e + toNanoseconds d)) ∧
      (steady_ = true → (forLoop (quiet (fixedTask d e)) steady_ m s).state.next
        ≤ (forLoop (quiet (fixedTask d e)) steady_ m s).state.clock) := by
  intro m
  induction m with
  | zero => intro s hs; simpa [forLoop] using hs
  | succ m ih =>
    intro s hs
    have hD : 0 < toNanoseconds d := by unfold toNanoseconds; omega
    have hb := body_quiet (fixedTask d e) steady_ s (by simp [fixedTask]; omega)
    have hadv : advance steady_ s.next (s.clock + ((fixedTask d e) s.starts.length).exec)
        (toNanoseconds ((fixedTask d e) s.starts.length).ms)
          = s.clock + e + toNanoseconds d := by
      simp only [fixedTask, advance]
      cases steady_ with
      | false => simp
      | true =>
        have h1 := hmode rfl
        have h2 := hs rfl
        simp only [if_true]
        rw [if_pos (by omega)]
    rw [hadv, max_eq_right (by simp only [fixedTask]; omega)] at hb
    rw [forLoop_of_again _ _ m s _ hb]
    obtain ⟨h1, h2, h3, h4⟩ := ih { next := s.clock + e + toNanoseconds d,
                                    clock := s.clock + e + toNanoseconds d,
                                    starts := s.starts ++ [s.clock] } (fun _ => le_refl _)
    refine ⟨h1, ?_, ?_, h4⟩
    · rw [h2]; push_cast; ring
    · rw [h3, List.append_assoc, List.singleton_append, ← progression_cons, add_assoc]

/-- C5. Steady mode, slow task. In an uninterrupted run in steady mode of a task that always
returns `d > 0` milliseconds and always runs for `e > d`, entered at `t0`: the loop keeps
running, call number `k` (from 0) starts at `t0 + k * (e + d)`, so consecutive starts differ by
exactly `e + d`; and in every pass the advanced target `next + d` has already passed when `now`
is sampled, so that the pass re-anchors the target to `now + d`. -/
theorem steady_cadence_slow (d : Int) (hd : 0 < d) (e : Nat) (he : msec d < e) (t0 : Int)
    (fuel : Nat) :
    (run (quiet (fixedTask d e)) true t0 fuel).exited = false ∧
    (run (quiet (fixedTask d e)) true t0 fuel).state.starts
      = (List.range fuel).map (fun k : Nat => t0 + k * (e + msec d)) ∧
    List.Chain' (fun a b : Int => b - a = e + msec d)
      (run (quiet (fixedTask d e)) true t0 fuel).state.starts ∧
    (run (quiet (fixedTask d e)) true t0 fuel).state.next + msec d
      < nowOf (quiet (fixedTask d e)) (run (quiet (fixedTask d e)) true t0 fuel).state ∧
    targetOf (quiet (fixedTask d e)) true (run (quiet (fixedTask d e)) true t0 fuel).state
      = nowOf (quiet (fixedTask d e)) (run (quiet (fixedTask d e)) true t0 fuel).state
          + msec d := by
  obtain ⟨h1, h2, h3, h4⟩ :=
    forLoop_sum_cadence true d hd e (fun _ => he) fuel (entry t0) (fun _ => le_refl _)
  have h4 := h4 rfl
  unfold msec at *
  unfold run
  have hlt : (forLoop (quiet (fixedTask d e)) true fuel (entry t0)).state.next + toNanoseconds d
      < nowOf (quiet (fixedTask d e)) (forLoop (quiet (fixedTask d e)) true fuel (entry t0)).state := by
    have hnow : nowOf (quiet (fixedTask d e))
        (forLoop (quiet (fixedTask d e)) true fuel (entry t0)).state
          = (forLoop (quiet (fixedTask d e)) true fuel (entry t0)).state.clock + e := rfl
    rw [hnow]
    omega
  refine ⟨h1, by simpa [entry] using h3, ?_, hlt, ?_⟩
  · rw [h3]
    simpa [entry] using chain_progression t0 (e + toNanoseconds d) fuel
  · have hd' : delayOf (quiet (fixedTask d e))
        (forLoop (quiet (fixedTask d e)) true fuel (entry t0)).state = toNanoseconds d := rfl
    simp only [targetOf, advance, if_true, hd']
    rw [if_pos hlt]

theorem steady_cadence_slow_witness :
    ((run (quiet (fixedTask 10 100000000)) true 0 4).state.starts
        = (List.range 4).map (fun k : Nat => (0 : Int) + k * ((100000000 : Nat) + msec 10)) ∧
      List.Chain' (fun a b : Int => b - a = (100000000 : Nat) + msec 10)
        (run (quiet (fixedTask 10 100000000)) true 0 4).state.starts) ∧
    ((run (quiet (fixedTask 22 150000000)) true 0 4).state.starts
        = (List.range 4).map (fun k : Nat => (0 : Int) + k * ((150000000 : Nat) + msec 22)) ∧
      List.Chain' (fun a b : Int => b - a = (150000000 : Nat) + msec 22)
        (run (quiet (fixedTask 22 150000000)) true 0 4).state.starts) :=
  ⟨⟨(steady_cadence_slow 10 (by decide) 100000000 (by decide) 0 4).2.1,
      (steady_cadence_slow 10 (by decide) 100000000 (by decide) 0 4).2.2.1⟩,
    ⟨(steady_cadence_slow 22 (by decide) 150000000 (by decide) 0 4).2.1,
      (steady_cadence_slow 22 (by decide) 150000000 (by decide) 0 4).2.2.1⟩⟩

theorem wakeAt_le_of_mem (tl : Timeline) (now next : Int) :
    ∀ c ∈ tl, now < c.1 → wakeAt tl now next ≤ c.1 := by
  induction tl with
  | nil => intro c hc; simp at hc
  | cons a tl ih =>
    intro c hc hlt
    unfold wakeAt at ih ⊢
    rw [List.foldr_cons]
    rcases List.mem_cons.1 hc with h | h
    · subst h
      rw [if_pos hlt]
      exact min_le_left _ _
    · have := ih c h hlt
      split_ifs
      · exact (min_le_right _ _).trans this
      · exact this

theorem le_wakeAt (tl : Timeline) (now next lb : Int) (h0 : lb ≤ max now next) :
    (∀ c ∈ tl, now < c.1 → lb ≤ c.1) → lb ≤ wakeAt tl now next := by
  induction tl with
  | nil => intro _; simpa [wakeAt] using h0
  | cons a tl ih =>
    intro h
    have := ih (fun c hc => h c (List.mem_cons_of_mem _ hc))
    unfold wakeAt at this ⊢
    rw [List.foldr_cons]
    split_ifs with hlt
    · exact le_min (h a (List.mem_cons_self _ _) hlt) this
    · exact this

/-- A wait ends at the first `notify_all` issued during it. -/
theorem wakeAt_of_first (tl : Timeline) (now next r : Int) (call : OwnerCall)
    (hr : (r, call) ∈ tl) (h1 : now < r) (h2 : r < next)
    (hfirst : ∀ c ∈ tl, now < c.1 → r ≤ c.1) : wakeAt tl now next = r :=
  le_antisymm (wakeAt_le_of_mem tl now next (r, call) hr h1)
    (le_wakeAt tl now next r (le_trans (le_of_lt h2) (le_max_right _ _)) hfirst)

/-- C8. Reset wakes and never stops. (1) `reset` leaves `stop_` as it is. (2) When the owner
calls `reset` at `r` while the worker sleeps (the worker passed the check after the task and
entered its wait before `r`, the target lies after `r`, and no other owner call came first),
`stop_` being unset at `r`, the wait ends at `r`, the worker goes back to the head of the loop
and calls the task at `r`. (3) When the owner only ever calls `reset` and the task never
returns zero, the loop has not been left after any number of passes, each of which made one
call. (4) The test `Task_reset`: non-steady mode, a task that takes no time and returns
2000 ms, resets at 200 ms, 2700 ms and 2900 ms and the destructor at 3100 ms give the five
calls at 0, 200, 2200, 2700 and 2900 ms, however many passes are allowed beyond five; without
the three resets the same run makes two calls. -/
theorem reset_never_stops (task : Nat → Call) (tl : Timeline) (steady_ : Bool) (s : Worker)
    (fuel : Nat) :
    (∀ m : Shared, (reset m).stop_ = m.stop_) ∧
    (∀ r : Int, (r, OwnerCall.reset) ∈ tl →
      (sharedAt tl (nowOf (ownerWorld task tl) s)).stop_ = false →
      (sharedAt tl r).stop_ = false → (task s.starts.length).ms ≠ 0 →
      nowOf (ownerWorld task tl) s < r → r < targetOf (ownerWorld task tl) steady_ s →
      (∀ c ∈ tl, nowOf (ownerWorld task tl) s < c.1 → r ≤ c.1) →
        body (ownerWorld task tl) steady_ s
          = .again { next := targetOf (ownerWorld task tl) steady_ s, clock := r,
                     starts := s.starts ++ [s.clock] } ∧
        (body (ownerWorld task tl) steady_
          { next := targetOf (ownerWorld task tl) steady_ s, clock := r,
            starts := s.starts ++ [s.clock] }).state.starts = s.starts ++ [s.clock, r]) ∧
    ((∀ c ∈ tl, c.2 = OwnerCall.reset) → (∀ k, (task k).ms ≠ 0) →
      (forLoop (ownerWorld task tl) steady_ fuel s).exited = false ∧
      (forLoop (ownerWorld task tl) steady_ fuel s).state.starts.length
        = s.starts.length + fuel) ∧
    (run (ownerWorld (fixedTask 2000 0) resetTest) false 0 (5 + fuel)
      = ⟨true, { next := msec 4900, clock := msec 3100,
                 starts := [0, msec 200, msec 2200, msec 2700, msec 2900] }⟩ ∧
      (run (ownerWorld (fixedTask 2000 0) resetTest) false 0 (5 + fuel)).calls = 5 ∧
      (run (ownerWorld (fixedTask 2000 0) [(msec 3100, .destroy)]) false 0 (5 + fuel)).calls
        = 2) := by
  refine ⟨fun _ => rfl, ?_, ?_, ?_⟩
  · intro r hr hnow hstop hms h1 h2 hfirst
    have hw : wokeOf (ownerWorld task tl) steady_ s = r :=
      wakeAt_of_first tl _ _ r _ hr h1 h2 hfirst
    have hb := body_of_wake_run (ownerWorld task tl) steady_ s hnow hms
      (by rw [hw]; exact hstop)
    rw [hw] at hb
    refine ⟨hb, ?_⟩
    rw [body_starts]
    simp
  · intro hl hms
    exact forLoop_running (ownerWorld task tl) steady_ (fun t => sharedAt_of_resets tl hl t)
      fuel s (fun j _ => hms _)
  · have h5 : run (ownerWorld (fixedTask 2000 0) resetTest) false 0 5
        = ⟨true, { next := msec 4900, clock := msec 3100,
                   starts := [0, msec 200, msec 2200, msec 2700, msec 2900] }⟩ := by decide
    have h2 : run (ownerWorld (fixedTask 2000 0) [(msec 3100, .destroy)]) false 0 5
        = ⟨true, { next := msec 4000, clock := msec 3100, starts := [0, msec 2000] }⟩ := by
      decide
    unfold run at h5 h2
    unfold run Run.calls
    rw [forLoop_add, forLoop_add, h5, h2]
    simp

theorem reset_never_stops_witness :
    (body (ownerWorld (fixedTask 2000 0) resetTest) false (entry 0)
      = .again { next := msec 2000, clock := msec 200, starts := [0] }) ∧
    ((forLoop (ownerWorld (fixedTask 2000 0) [(msec 200, .reset), (msec 2700, .reset)])
      false 7 (entry 0)).exited = false ∧
    (forLoop (ownerWorld (fixedTask 2000 0) [(msec 200, .reset), (msec 2700, .reset)])
      false 7 (entry 0)).state.starts.length = (entry 0).starts.length + 7) :=
  ⟨((reset_never_stops (fixedTask 2000 0) resetTest false (entry 0) 0).2.1 (msec 200)
      (by decide) (by decide) (by decide) (by decide) (by decide) (by decide)
      (by decide)).1,
    (reset_never_stops (fixedTask 2000 0) [(msec 200, .reset), (msec 2700, .reset)] false
      (entry 0) 7).2.2.1 (by decide) (fun _ => by simp [fixedTask])⟩

/-! ## Number of calls before the destructor -/

end TaskLoop
